import Mathlib

/-!
# Verification of the `c!` comprehension macro (`src/lib.rs`)

The repository implements Python-style comprehensions as a single recursive
`macro_rules! c` definition.  This file gives a shallow embedding of that
macro's token-level rewriting phases (`@preprocess[0]`, `@preprocess[1]`,
`@construct[0]`, `@construct[1]`) and of the runtime semantics of the code it
expands to (nested Rust `for`/`if` statements around a push/insert/execute
action), and proves or refutes the specification's claims about it.

Modelling conventions:

* A Rust token tree is either a single token or a delimited group; the macro's
  `$t:tt` matcher consumes a whole group at once, so the phases never look
  inside a group.  `Tok.group` models any delimited group (the delimiter kind
  is irrelevant to every rule of the macro).  `Tok.ident` models any opaque
  atom (identifier, literal, operator); `Tok.atSign` models the `@` token that
  occurs in the macro's internal rule heads.
* Fragment matchers (`$e:expr`, `$s:stmt`, `$p:pat`, `$el:ident`) are modelled
  as committed longest-prefix scans over the classes of tokens that may occur
  in such fragments (`isExprTok`, `isPatTok`).  An `if` token may begin a Rust
  expression, so it is expression-like; separators (`,`), `=>`, `;`, `:`,
  `in`, `for`, `@` cannot, so a fragment whose lookahead is one of them fails
  quietly and the next rule of the phase is tried, exactly as the real
  matcher behaves in the positions the macro uses these fragments.  This
  abstraction equates a run of opaque atoms with one host expression; it is
  exact for fragments that are well-formed host sub-expressions (every valid
  comprehension), and the theorems about other failure modes stay within the
  preprocessing phases, which dispatch on literal token trees only.
* Two behaviours of the host matcher on ill-formed streams are outside the
  model and no theorem depends on them: when none of a phase's rules
  matches, the public entry rule `($($comp:tt)*)` restarts preprocessing on
  the tokens `@construct[0] …` themselves (modelled as `none` from
  `construct0`, `MErr.noRuleMatch` inside clause parsing); and when a
  committed fragment parse fails part-way (e.g. `$k:expr` on `- => y`), the
  whole invocation aborts with the host parse error instead.
-/

/-- A Rust token tree as seen by `macro_rules`: the keyword tokens that the
`c!` rules match on (`for`, `if`, `in`, `:`, `;`, `,`, `=>`), the `@` token of
the internal rule heads, opaque atoms, and delimited groups (which `$t:tt`
consumes whole, so nothing inside a group is ever inspected by the macro). -/
inductive Tok where
  | tfor : Tok
  | tif : Tok
  | tin : Tok
  | colon : Tok
  | semi : Tok
  | sep : Tok
  | arrow : Tok
  | atSign : Tok
  | ident : Nat → Tok
  | group : List Tok → Tok

/-- Translation-time failure codes of the macro: the two `compile_error!`
messages of the preprocessing phases ("Comprehension must contain at least
one `for ... in ...` expression", "Missing loop body"), the two of the
construction phase ("Invalid for-loop", "Invalid if-expression"), and
`noRuleMatch` for a clause-stream shape on which no `@construct[1]` rule
matches (the real macro would then fall through to the entry rule; that
unfolding is outside the model and no theorem depends on it — see module
comment). -/
inductive MErr where
  | missingLoopClause : MErr
  | missingLoopBody : MErr
  | invalidForLoop : MErr
  | invalidIfExpr : MErr
  | noRuleMatch : MErr
deriving DecidableEq, Repr

def isForTok : Tok → Bool
  | Tok.tfor => true
  | _ => false

def isIfTok : Tok → Bool
  | Tok.tif => true
  | _ => false

def isColonTok : Tok → Bool
  | Tok.colon => true
  | _ => false

/-- Does the accumulated output stream begin with a `,`?  This is the guard of
the first `@preprocess[1]` rule (src/lib.rs lines 132-134). -/
def headIsSep : List Tok → Bool
  | Tok.sep :: _ => true
  | _ => false

/-- The tokens `@preprocess[1]` appends for one consumed token tree: `for` and
`if` get a `,` inserted in front (src/lib.rs lines 135-140), everything else
is copied unchanged (lines 142-144). -/
def stepTok (t : Tok) : List Tok :=
  if isForTok t || isIfTok t then [Tok.sep, t] else [t]

/-- Phase `@preprocess[1]` (src/lib.rs lines 127-148).  Its rules, in order:
if the accumulated output begins with a `,` there was no loop body
(`compile_error!("Missing loop body")`); a leading `for` or `if` is copied
with a `,` inserted before it; any other token tree is copied unchanged; on
empty input the accumulated output is handed to `@construct[0]`. -/
def preprocess1 : List Tok → List Tok → Except MErr (List Tok)
  | ts, acc =>
    if headIsSep acc then Except.error MErr.missingLoopBody
    else
      match ts with
      | [] => Except.ok acc
      | t :: rest => preprocess1 rest (acc ++ stepTok t)

/-- Phase `@preprocess[0]` (src/lib.rs lines 108-124).  Its rules, in order:
a leading `:` is replaced by `=>` and scanning continues in `@preprocess[1]`;
a leading `for` switches to `@preprocess[1]` with the `for` still unread; any
other token tree is copied; an empty input is the error
`compile_error!("Comprehension must contain at least one for ... in ...
expression")`. -/
def preprocess0 : List Tok → List Tok → Except MErr (List Tok)
  | [], _ => Except.error MErr.missingLoopClause
  | t :: rest, acc =>
    if isColonTok t then preprocess1 rest (acc ++ [Tok.arrow])
    else if isForTok t then preprocess1 (t :: rest) acc
    else preprocess0 rest (acc ++ [t])

/-- The rewriting `@preprocess[1]` performs on the part of the stream it scans
(when it does not error): a `,` is inserted before every top-level `for` and
every top-level `if`; everything else — groups included — is copied
verbatim. -/
def ins : List Tok → List Tok
  | [] => []
  | t :: rest => stepTok t ++ ins rest

theorem headIsSep_append (acc l : List Tok) (h : acc ≠ []) :
    headIsSep (acc ++ l) = headIsSep acc := by
  cases acc with
  | nil => exact absurd rfl h
  | cons a as => cases a <;> rfl

theorem preprocess1_spec (ts : List Tok) : ∀ acc : List Tok,
    acc ≠ [] → headIsSep acc = false →
    preprocess1 ts acc = Except.ok (acc ++ ins ts) := by
  induction ts with
  | nil =>
    intro acc _ hhead
    rw [preprocess1.eq_def]
    simp [hhead, ins]
  | cons t rest ih =>
    intro acc hne hhead
    rw [preprocess1.eq_def]
    simp only [hhead, Bool.false_eq_true, if_false]
    rw [ih (acc ++ stepTok t) (by simp [stepTok]; split <;> simp)
      (by rw [headIsSep_append _ _ hne]; exact hhead)]
    simp [ins]

theorem preprocess1_emptyBody (ts acc : List Tok) (h : headIsSep acc = true) :
    preprocess1 ts acc = Except.error MErr.missingLoopBody := by
  rw [preprocess1.eq_def]
  simp [h]

/-- A prefix that contains no top-level `:` and no top-level `for` is copied
verbatim by `@preprocess[0]`. -/
theorem preprocess0_copy (a : List Tok) : ∀ (b acc : List Tok),
    a.any isColonTok = false → a.any isForTok = false →
    preprocess0 (a ++ b) acc = preprocess0 b (acc ++ a) := by
  induction a with
  | nil => intro b acc _ _; simp
  | cons t ts ih =>
    intro b acc hc hf
    simp only [List.any_cons, Bool.or_eq_false_iff] at hc hf
    rw [List.cons_append, preprocess0]
    simp only [hc.1, hf.1, Bool.false_eq_true, if_false]
    rw [ih b (acc ++ [t]) hc.2 hf.2]
    simp

example : preprocess0 [Tok.ident 0, Tok.colon, Tok.ident 1, Tok.tfor, Tok.ident 2] [] =
    Except.ok [Tok.ident 0, Tok.arrow, Tok.ident 1, Tok.sep, Tok.tfor, Tok.ident 2] := rfl

theorem countP_stepTok_colon (t : Tok) :
    (stepTok t).countP isColonTok = [t].countP isColonTok := by
  rw [stepTok]
  split
  · rename_i h
    cases t <;> simp_all [isForTok, isIfTok, isColonTok, List.countP_cons]
  · rfl

theorem countP_ins_colon (l : List Tok) :
    (ins l).countP isColonTok = l.countP isColonTok := by
  induction l with
  | nil => rfl
  | cons t rest ih =>
    rw [ins, List.countP_append, countP_stepTok_colon, ih]
    simp [List.countP_cons, Nat.add_comm]

/-- C5: in a body with no top-level `:` or `for` before it, the first
top-level `:` is replaced by the key/value separator `=>`; everything after
it — in particular every later `:` and every `:` nested inside a group — is
left in place (`ins` only inserts `,` before top-level `for`/`if` and copies
groups whole, and the second conjunct records that it preserves every
remaining top-level `:`). -/
theorem colon_first_only_rewritten (a b : List Tok)
    (hc : a.any isColonTok = false) (hf : a.any isForTok = false)
    (hh : headIsSep a = false) :
    preprocess0 (a ++ Tok.colon :: b) [] = Except.ok (a ++ Tok.arrow :: ins b)
    ∧ (ins b).countP isColonTok = b.countP isColonTok := by
  constructor
  · rw [preprocess0_copy a (Tok.colon :: b) [] hc hf]
    rw [preprocess0]
    simp only [isColonTok, if_true, List.nil_append]
    rw [preprocess1_spec b (a ++ [Tok.arrow]) (by simp) ?_]
    · simp
    · cases a with
      | nil => rfl
      | cons x xs =>
        rw [headIsSep_append _ _ (by simp)]
        exact hh
  · exact countP_ins_colon b

/-- Evaluation witness for `colon_first_only_rewritten`: the body
`e₀ [(:)] : e₁ : e₂` (a group containing a `:`, then the separating `:`, then
a value expression itself containing a later top-level `:`) followed by
`for e₃ in e₄`.  Only the middle `:` becomes `=>`; the nested and the later
`:` survive unchanged. -/
theorem colon_first_only_rewritten_witness :
    ([Tok.ident 0, Tok.group [Tok.colon]].any isColonTok = false)
    ∧ ([Tok.ident 0, Tok.group [Tok.colon]].any isForTok = false)
    ∧ (headIsSep [Tok.ident 0, Tok.group [Tok.colon]] = false)
    ∧ preprocess0 ([Tok.ident 0, Tok.group [Tok.colon]] ++ Tok.colon ::
        [Tok.ident 1, Tok.colon, Tok.ident 2, Tok.tfor, Tok.ident 3, Tok.tin, Tok.ident 4]) []
      = Except.ok [Tok.ident 0, Tok.group [Tok.colon], Tok.arrow, Tok.ident 1, Tok.colon,
        Tok.ident 2, Tok.sep, Tok.tfor, Tok.ident 3, Tok.tin, Tok.ident 4] :=
  ⟨rfl, rfl, rfl,
    (colon_first_only_rewritten [Tok.ident 0, Tok.group [Tok.colon]]
      [Tok.ident 1, Tok.colon, Tok.ident 2, Tok.tfor, Tok.ident 3, Tok.tin, Tok.ident 4]
      rfl rfl rfl).1⟩

/-- C10 counterexample.  The claim says a top-level `if` occurring in the body
(before the first `for`) is copied through as part of the body.  That is false
once a top-level `:` precedes the `if`: for the stream
`e₀ : if e₁ for e₂ in e₃` the code emits a `,` before the `if` (first
conjunct), i.e. the `if` starts a filter clause, whereas the claim predicts
the separator-free output of the second conjunct. -/
theorem body_if_after_colon_counterexample :
    preprocess0 [Tok.ident 0, Tok.colon, Tok.tif, Tok.ident 1, Tok.tfor,
        Tok.ident 2, Tok.tin, Tok.ident 3] []
      = Except.ok [Tok.ident 0, Tok.arrow, Tok.sep, Tok.tif, Tok.ident 1, Tok.sep,
        Tok.tfor, Tok.ident 2, Tok.tin, Tok.ident 3]
    ∧ [Tok.ident 0, Tok.arrow, Tok.sep, Tok.tif, Tok.ident 1, Tok.sep,
        Tok.tfor, Tok.ident 2, Tok.tin, Tok.ident 3]
      ≠ [Tok.ident 0, Tok.arrow, Tok.tif, Tok.ident 1, Tok.sep,
        Tok.tfor, Tok.ident 2, Tok.tin, Tok.ident 3] :=
  ⟨rfl, by simp⟩

/-- C10 as amended: the body extends to the first top-level `for` **or** `:`,
whichever comes first.  Before either of those, a top-level `if` is copied
through verbatim as part of the body (first conjunct), and the first
top-level `for` ends the body scan (second conjunct). -/
theorem body_scan_amended (a b : List Tok)
    (hc : a.any isColonTok = false) (hf : a.any isForTok = false) :
    preprocess0 (a ++ Tok.tif :: b) [] = preprocess0 b (a ++ [Tok.tif])
    ∧ preprocess0 (a ++ Tok.tfor :: b) [] = preprocess1 (Tok.tfor :: b) a := by
  constructor
  · have h := preprocess0_copy (a ++ [Tok.tif]) b []
      (by simp [hc, isColonTok]) (by simp [hf, isForTok])
    simpa using h
  · rw [preprocess0_copy a (Tok.tfor :: b) [] hc hf]
    rw [preprocess0]
    simp [isColonTok, isForTok]

/-- Evaluation witness for `body_scan_amended` at the body prefix
`e₀ if e₁`: the `if` is copied into the body, and a subsequent `for` ends the
body scan. -/
theorem body_scan_amended_witness :
    ([Tok.ident 0].any isColonTok = false)
    ∧ ([Tok.ident 0].any isForTok = false)
    ∧ preprocess0 ([Tok.ident 0] ++ Tok.tif :: [Tok.ident 1, Tok.tfor, Tok.ident 2,
        Tok.tin, Tok.ident 3]) []
      = preprocess0 [Tok.ident 1, Tok.tfor, Tok.ident 2, Tok.tin, Tok.ident 3]
        [Tok.ident 0, Tok.tif] :=
  ⟨rfl, rfl,
    (body_scan_amended [Tok.ident 0]
      [Tok.ident 1, Tok.tfor, Tok.ident 2, Tok.tin, Tok.ident 3] rfl rfl).1⟩

/-- Tokens that can occur inside the `$k:expr`, `$v:expr`, `$e:expr`,
`$iter:expr`, `$cond:expr` and `$s:stmt` fragments the `@construct` rules
match: opaque atoms, whole groups, and `if` (an `if` expression is a Rust
expression).  `,`, `=>`, `;`, `:`, `in`, `for` (always preceded by `,` after
preprocessing) and `@` end such a fragment in the positions the macro uses
it. -/
def isExprTok : Tok → Bool
  | Tok.ident _ => true
  | Tok.group _ => true
  | Tok.tif => true
  | _ => false

/-- Tokens that can occur inside the `$p:pat` (and `$el:ident`) fragment of
the `@construct[1]` for-rules: opaque atoms and whole groups (tuple patterns,
`Some(x)`, literal patterns, …).  The rules for a single-identifier pattern
(src/lib.rs lines 168-172) and for a general pattern (lines 173-177) expand
to the same `for … in … { … }` loop, so they are modelled as one case. -/
def isPlainTok : Tok → Bool
  | Tok.ident _ => true
  | Tok.group _ => true
  | _ => false

/-- The classified loop body: the three `@construct[0]` rules produce a hash
map comprehension from `$k:expr => $v:expr`, a vector comprehension from
`$e:expr`, or a statement comprehension from `$s:stmt;`
(src/lib.rs lines 151-165). -/
inductive TBody where
  | mapB : List Tok → List Tok → TBody
  | seqB : List Tok → TBody
  | stmtB : List Tok → TBody

/-- A parsed clause of the comprehension tail: `for pattern in iterable` or
`if condition`, both holding their sub-expression tokens verbatim. -/
inductive TClause where
  | cforT : List Tok → List Tok → TClause
  | cifT : List Tok → TClause

/-- A committed fragment parse: the longest prefix of tokens belonging to
the fragment class `p`, which must be non-empty (no Rust expression, pattern
or statement is empty), together with the unconsumed remainder. -/
def fragSplit (p : Tok → Bool) (ts : List Tok) : Option (List Tok × List Tok) :=
  match ts.takeWhile p with
  | [] => none
  | f => some (f, ts.dropWhile p)

/-- Rule `@construct[0] $k:expr => $v:expr, for $($rest:tt)*`
(src/lib.rs lines 153-157): a committed expression parse, the literal `=>`,
a second expression, then the literal `, for`. -/
def c0Map (ts : List Tok) : Option (TBody × List Tok) :=
  match fragSplit isExprTok ts with
  | some (k, Tok.arrow :: r2) =>
    match fragSplit isExprTok r2 with
    | some (v, Tok.sep :: Tok.tfor :: rest) =>
      some (TBody.mapB k v, Tok.sep :: Tok.tfor :: rest)
    | _ => none
  | _ => none

/-- Rule `@construct[0] $e:expr, for $($rest:tt)*` (src/lib.rs lines
158-162). -/
def c0Seq (ts : List Tok) : Option (TBody × List Tok) :=
  match fragSplit isExprTok ts with
  | some (e, Tok.sep :: Tok.tfor :: rest) => some (TBody.seqB e, Tok.sep :: Tok.tfor :: rest)
  | _ => none

/-- Rule `@construct[0] $s:stmt;, for $($rest:tt)*` (src/lib.rs lines
163-165). -/
def c0Stmt (ts : List Tok) : Option (TBody × List Tok) :=
  match fragSplit isExprTok ts with
  | some (s, Tok.semi :: Tok.sep :: Tok.tfor :: rest) =>
    some (TBody.stmtB s, Tok.sep :: Tok.tfor :: rest)
  | _ => none

/-- Phase `@construct[0]`: its three rules are tried in source order; `none`
means none of them matched.  What the real compiler does next — entry-rule
fallthrough after quiet literal/lookahead failures, or an immediate parse
error when a committed fragment parse failed inside an arm — is outside the
model, and no theorem relies on `construct0` beyond streams whose matching
is decided by literal and lookahead dispatch (see module comment). -/
def construct0 (ts : List Tok) : Option (TBody × List Tok) :=
  (c0Map ts).orElse fun _ => (c0Seq ts).orElse fun _ => c0Stmt ts

theorem len_dropWhile_le (p : Tok → Bool) (l : List Tok) :
    (l.dropWhile p).length ≤ l.length := by
  induction l with
  | nil => simp
  | cons t rest ih =>
    rw [List.dropWhile_cons]
    split
    · exact Nat.le_succ_of_le ih
    · simp

theorem fragSplit_rest_le (p : Tok → Bool) (ts f r : List Tok)
    (h : fragSplit p ts = some (f, r)) : r.length ≤ ts.length := by
  rw [fragSplit] at h
  split at h
  · exact absurd h (by simp)
  · cases h
    exact len_dropWhile_le _ _

/-- Phase `@construct[1]`, viewed as a parser of the clause stream that
follows the body (src/lib.rs lines 167-191), recursing on a fuel bound (the
remaining stream strictly shrinks across a clause, so the wrapper
`parseClauses` below always supplies enough fuel and the fuel-out branch is
unreachable).  Each step consumes `, for <pat> in <expr>` or `, if <expr>`;
a `for` segment in which the pattern or iterable expression parse fails, or
whose `in` is missing, or that is followed by a token other than `,`, hits
the catch-all rule at lines 178-180 (`compile_error!("Invalid for-loop")`),
and likewise for `if` at lines 186-188; an empty stream is the innermost
rule (lines 189-191).  The rules for a single-identifier pattern (lines
168-172) and for a general pattern (lines 173-177) expand to the same
`for … in … { … }` loop, so they are one case here.  A stream on which no
rule matches at all is `noRuleMatch` (entry-rule fallthrough, see module
comment). -/
def parseClausesGo : Nat → List Tok → Except MErr (List TClause)
  | _, [] => Except.ok []
  | fuel + 1, Tok.sep :: Tok.tfor :: rest =>
    (match fragSplit isPlainTok rest with
     | some (p, Tok.tin :: r2) =>
       match fragSplit isExprTok r2 with
       | some (it, []) => Except.ok [TClause.cforT p it]
       | some (it, Tok.sep :: r4) =>
         match parseClausesGo fuel (Tok.sep :: r4) with
         | Except.error e => Except.error e
         | Except.ok cls => Except.ok (TClause.cforT p it :: cls)
       | _ => Except.error MErr.invalidForLoop
     | _ => Except.error MErr.invalidForLoop)
  | fuel + 1, Tok.sep :: Tok.tif :: rest =>
    (match fragSplit isExprTok rest with
     | some (c, []) => Except.ok [TClause.cifT c]
     | some (c, Tok.sep :: r2) =>
       match parseClausesGo fuel (Tok.sep :: r2) with
       | Except.error e => Except.error e
       | Except.ok cls => Except.ok (TClause.cifT c :: cls)
     | _ => Except.error MErr.invalidIfExpr)
  | _, _ => Except.error MErr.noRuleMatch

/-- `@construct[1]` clause parsing with its fuel instantiated to the stream
length, which always suffices (a clause is at least four tokens long and
recursion consumes at least one unit of fuel per clause). -/
def parseClauses (ts : List Tok) : Except MErr (List TClause) :=
  parseClausesGo ts.length ts

/-- The whole translation pipeline of the macro on a raw token stream:
`@preprocess[0]` / `@preprocess[1]`, then `@construct[0]` classifying the
body, then `@construct[1]` parsing the clause stream. -/
def translateToks (ts : List Tok) : Except MErr (TBody × List TClause) :=
  match preprocess0 ts [] with
  | Except.error e => Except.error e
  | Except.ok out =>
    match construct0 out with
    | none => Except.error MErr.noRuleMatch
    | some (b, rest) =>
      match parseClauses rest with
      | Except.error e => Except.error e
      | Except.ok cls => Except.ok (b, cls)

theorem takeWhile_append_stop (p : Tok → Bool) (a : List Tok) (b : Tok) (r : List Tok)
    (ha : a.all p = true) (hb : p b = false) :
    (a ++ b :: r).takeWhile p = a := by
  induction a with
  | nil => simp [List.takeWhile_cons, hb]
  | cons t ts ih =>
    simp only [List.all_cons, Bool.and_eq_true] at ha
    simp [List.takeWhile_cons, ha.1, ih ha.2]

theorem dropWhile_append_stop (p : Tok → Bool) (a : List Tok) (b : Tok) (r : List Tok)
    (ha : a.all p = true) (hb : p b = false) :
    (a ++ b :: r).dropWhile p = b :: r := by
  induction a with
  | nil => simp [List.dropWhile_cons, hb]
  | cons t ts ih =>
    simp only [List.all_cons, Bool.and_eq_true] at ha
    simp [List.dropWhile_cons, ha.1, ih ha.2]

theorem fragSplit_append_stop (p : Tok → Bool) (a : List Tok) (b : Tok) (r : List Tok)
    (hne : a ≠ []) (ha : a.all p = true) (hb : p b = false) :
    fragSplit p (a ++ b :: r) = some (a, b :: r) := by
  rw [fragSplit, takeWhile_append_stop p a b r ha hb, dropWhile_append_stop p a b r ha hb]
  cases a with
  | nil => exact absurd rfl hne
  | cons x xs => rfl

theorem takeWhile_all (p : Tok → Bool) (a : List Tok) (ha : a.all p = true) :
    a.takeWhile p = a := by
  induction a with
  | nil => rfl
  | cons t ts ih =>
    simp only [List.all_cons, Bool.and_eq_true] at ha
    simp [List.takeWhile_cons, ha.1, ih ha.2]

theorem dropWhile_all (p : Tok → Bool) (a : List Tok) (ha : a.all p = true) :
    a.dropWhile p = [] := by
  induction a with
  | nil => rfl
  | cons t ts ih =>
    simp only [List.all_cons, Bool.and_eq_true] at ha
    simp [List.dropWhile_cons, ha.1, ih ha.2]

theorem fragSplit_all (p : Tok → Bool) (a : List Tok) (hne : a ≠ []) (ha : a.all p = true) :
    fragSplit p a = some (a, []) := by
  rw [fragSplit, takeWhile_all p a ha, dropWhile_all p a ha]
  cases a with
  | nil => exact absurd rfl hne
  | cons x xs => rfl

theorem plain_tok_facts (t : Tok) (h : isPlainTok t = true) :
    isColonTok t = false ∧ isForTok t = false ∧ isIfTok t = false
    ∧ isExprTok t = true ∧ stepTok t = [t] := by
  cases t <;> simp_all [isPlainTok, isColonTok, isForTok, isIfTok, isExprTok, stepTok]

theorem plain_any_colon (l : List Tok) (h : l.all isPlainTok = true) :
    l.any isColonTok = false := by
  induction l with
  | nil => rfl
  | cons t ts ih =>
    simp only [List.all_cons, Bool.and_eq_true] at h
    simp [(plain_tok_facts t h.1).1, ih h.2]

theorem plain_any_for (l : List Tok) (h : l.all isPlainTok = true) :
    l.any isForTok = false := by
  induction l with
  | nil => rfl
  | cons t ts ih =>
    simp only [List.all_cons, Bool.and_eq_true] at h
    simp [(plain_tok_facts t h.1).2.1, ih h.2]

theorem plain_all_expr (l : List Tok) (h : l.all isPlainTok = true) :
    l.all isExprTok = true := by
  induction l with
  | nil => rfl
  | cons t ts ih =>
    simp only [List.all_cons, Bool.and_eq_true] at h
    simp [(plain_tok_facts t h.1).2.2.2.1, ih h.2]

theorem headIsSep_plain_append (l r : List Tok) (hne : l ≠ []) (h : l.all isPlainTok = true) :
    headIsSep (l ++ r) = false := by
  cases l with
  | nil => exact absurd rfl hne
  | cons t ts =>
    simp only [List.all_cons, Bool.and_eq_true] at h
    have := h.1
    cases t <;> simp_all [isPlainTok, headIsSep]

theorem ins_append_plain (a r : List Tok) (h : a.all isPlainTok = true) :
    ins (a ++ r) = a ++ ins r := by
  induction a with
  | nil => rfl
  | cons t ts ih =>
    simp only [List.all_cons, Bool.and_eq_true] at h
    rw [List.cons_append, ins, (plain_tok_facts t h.1).2.2.2.2, ih h.2]
    rfl

theorem ins_tin (l : List Tok) : ins (Tok.tin :: l) = Tok.tin :: ins l := rfl

theorem ins_tfor (l : List Tok) : ins (Tok.tfor :: l) = Tok.sep :: Tok.tfor :: ins l := rfl

theorem ins_tif (l : List Tok) : ins (Tok.tif :: l) = Tok.sep :: Tok.tif :: ins l := rfl

/-- The comprehension tail as the author wrote it: `for pattern in iterable`
/ `if condition`, concatenated. -/
def clauseToks : TClause → List Tok
  | TClause.cforT p it => Tok.tfor :: (p ++ Tok.tin :: it)
  | TClause.cifT c => Tok.tif :: c

def clausesToks (cs : List TClause) : List Tok := (cs.map clauseToks).flatten

/-- The body as the author wrote it: `key : value`, a plain expression, or a
statement ending in `;`. -/
def bodyToks : TBody → List Tok
  | TBody.mapB k v => k ++ Tok.colon :: v
  | TBody.seqB e => e
  | TBody.stmtB s => s ++ [Tok.semi]

/-- A whole comprehension as the author wrote it. -/
def rawToks (b : TBody) (cs : List TClause) : List Tok := bodyToks b ++ clausesToks cs

/-- A non-empty host sub-expression containing no top-level `for`/`if` (nor
any of the delimiter tokens the macro matches on) — the hypothesis under
which sub-expressions survive the translation verbatim. -/
def plainNE (l : List Tok) : Bool := !l.isEmpty && l.all isPlainTok

def clauseWF : TClause → Bool
  | TClause.cforT p it => plainNE p && plainNE it
  | TClause.cifT c => plainNE c

def bodyWF : TBody → Bool
  | TBody.mapB k v => plainNE k && plainNE v
  | TBody.seqB e => plainNE e
  | TBody.stmtB s => plainNE s

def startsWithFor : List TClause → Bool
  | TClause.cforT _ _ :: _ => true
  | _ => false

/-- The body part of the preprocessed stream: the first top-level `:` has
become `=>`; otherwise the body is untouched. -/
def procBody : TBody → List Tok
  | TBody.mapB k v => k ++ Tok.arrow :: v
  | TBody.seqB e => e
  | TBody.stmtB s => s ++ [Tok.semi]

/-- The clause part of the preprocessed stream: each written clause with a
`,` inserted in front of its `for`/`if` keyword. -/
def procClauses (cs : List TClause) : List Tok :=
  (cs.map fun c => Tok.sep :: clauseToks c).flatten

theorem plainNE_iff (l : List Tok) : plainNE l = true ↔ l ≠ [] ∧ l.all isPlainTok = true := by
  simp [plainNE]

theorem clausesToks_cons (c : TClause) (cs : List TClause) :
    clausesToks (c :: cs) = clauseToks c ++ clausesToks cs := by
  simp [clausesToks]

theorem procClauses_cons (c : TClause) (cs : List TClause) :
    procClauses (c :: cs) = Tok.sep :: (clauseToks c ++ procClauses cs) := by
  simp [procClauses]

theorem ins_clauses (cs : List TClause) (h : cs.all clauseWF = true) :
    ins (clausesToks cs) = procClauses cs := by
  induction cs with
  | nil => rfl
  | cons c rest ih =>
    simp only [List.all_cons, Bool.and_eq_true] at h
    rw [clausesToks_cons, procClauses_cons]
    cases c with
    | cforT p it =>
      have hc := h.1
      simp only [clauseWF, Bool.and_eq_true, plainNE_iff] at hc
      rw [clauseToks]
      rw [List.cons_append, ins_tfor, List.append_assoc, ins_append_plain p _ hc.1.2]
      rw [List.cons_append, ins_tin, ins_append_plain it _ hc.2.2, ih h.2]
      simp
    | cifT cc =>
      have hc := h.1
      simp only [clauseWF, plainNE_iff] at hc
      rw [clauseToks]
      rw [List.cons_append, ins_tif, ins_append_plain cc _ hc.2, ih h.2]
      simp

theorem preprocess_raw (b : TBody) (cs : List TClause)
    (hb : bodyWF b = true) (h : cs.all clauseWF = true) (hfirst : startsWithFor cs = true) :
    preprocess0 (rawToks b cs) [] = Except.ok (procBody b ++ procClauses cs) := by
  have hshape : ∃ z, clausesToks cs = Tok.tfor :: z := by
    cases cs with
    | nil => exact absurd hfirst (by simp [startsWithFor])
    | cons c rest =>
      cases c with
      | cifT _ => exact absurd hfirst (by simp [startsWithFor])
      | cforT p it => exact ⟨_, by rw [clausesToks_cons, clauseToks]; rfl⟩
  obtain ⟨z, hz⟩ := hshape
  cases b with
  | seqB e =>
    simp only [bodyWF, plainNE_iff] at hb
    rw [rawToks, bodyToks, preprocess0_copy e _ [] (plain_any_colon e hb.2) (plain_any_for e hb.2)]
    rw [hz, preprocess0]
    simp only [isColonTok, isForTok, Bool.false_eq_true, if_false, if_true, List.nil_append]
    rw [← hz, preprocess1_spec _ e hb.1 (by
      have := headIsSep_plain_append e [] hb.1 hb.2
      simpa using this)]
    rw [ins_clauses cs h, procBody]
  | mapB k v =>
    simp only [bodyWF, Bool.and_eq_true, plainNE_iff] at hb
    rw [rawToks, bodyToks, List.append_assoc, List.cons_append]
    rw [preprocess0_copy k _ [] (plain_any_colon k hb.1.2) (plain_any_for k hb.1.2)]
    rw [preprocess0]
    simp only [isColonTok, if_true, List.nil_append]
    rw [preprocess1_spec _ (k ++ [Tok.arrow]) (by simp) (by
      cases hk : k with
      | nil => exact absurd hk hb.1.1
      | cons x xs =>
        rw [← hk, headIsSep_append _ _ hb.1.1]
        have := headIsSep_plain_append k [] hb.1.1 hb.1.2
        simpa using this)]
    rw [ins_append_plain v _ hb.2.2, ins_clauses cs h, procBody]
    simp
  | stmtB s =>
    simp only [bodyWF, plainNE_iff] at hb
    rw [rawToks, bodyToks]
    have hcopy : (s ++ [Tok.semi]).any isColonTok = false ∧ (s ++ [Tok.semi]).any isForTok = false := by
      constructor
      · simp [List.any_append, plain_any_colon s hb.2, isColonTok]
      · simp [List.any_append, plain_any_for s hb.2, isForTok]
    rw [preprocess0_copy (s ++ [Tok.semi]) (clausesToks cs) [] hcopy.1 hcopy.2]
    rw [hz, preprocess0]
    simp only [isColonTok, isForTok, Bool.false_eq_true, if_false, if_true, List.nil_append]
    rw [← hz, preprocess1_spec _ (s ++ [Tok.semi]) (by simp) (headIsSep_plain_append s [Tok.semi] hb.1 hb.2)]
    rw [ins_clauses cs h, procBody]

theorem construct0_proc (b : TBody) (z : List Tok) (hb : bodyWF b = true) :
    construct0 (procBody b ++ Tok.sep :: Tok.tfor :: z)
      = some (b, Tok.sep :: Tok.tfor :: z) := by
  cases b with
  | mapB k v =>
    simp only [bodyWF, Bool.and_eq_true, plainNE_iff] at hb
    have h2 : fragSplit isExprTok (v ++ Tok.sep :: Tok.tfor :: z)
        = some (v, Tok.sep :: Tok.tfor :: z) :=
      fragSplit_append_stop isExprTok v Tok.sep _ hb.2.1 (plain_all_expr v hb.2.2) rfl
    have h1 : fragSplit isExprTok (k ++ Tok.arrow :: (v ++ Tok.sep :: Tok.tfor :: z))
        = some (k, Tok.arrow :: (v ++ Tok.sep :: Tok.tfor :: z)) :=
      fragSplit_append_stop isExprTok k Tok.arrow _ hb.1.1 (plain_all_expr k hb.1.2) rfl
    rw [procBody, List.append_assoc, List.cons_append]
    simp [construct0, c0Map, h1, h2, Option.orElse]
  | seqB e =>
    simp only [bodyWF, plainNE_iff] at hb
    have h1 : fragSplit isExprTok (e ++ Tok.sep :: Tok.tfor :: z)
        = some (e, Tok.sep :: Tok.tfor :: z) :=
      fragSplit_append_stop isExprTok e Tok.sep _ hb.1 (plain_all_expr e hb.2) rfl
    rw [procBody]
    simp [construct0, c0Map, c0Seq, h1, Option.orElse]
  | stmtB s =>
    simp only [bodyWF, plainNE_iff] at hb
    have h1 : fragSplit isExprTok (s ++ Tok.semi :: Tok.sep :: Tok.tfor :: z)
        = some (s, Tok.semi :: Tok.sep :: Tok.tfor :: z) :=
      fragSplit_append_stop isExprTok s Tok.semi _ hb.1 (plain_all_expr s hb.2) rfl
    rw [procBody, List.append_assoc, List.singleton_append]
    simp [construct0, c0Map, c0Seq, c0Stmt, h1, Option.orElse]

theorem parse_proc_go (cs : List TClause) : ∀ fuel : Nat,
    (procClauses cs).length ≤ fuel → cs.all clauseWF = true →
    parseClausesGo fuel (procClauses cs) = Except.ok cs := by
  induction cs with
  | nil =>
    intro fuel _ _
    cases fuel <;> rfl
  | cons c rest ih =>
    intro fuel hlen h
    simp only [List.all_cons, Bool.and_eq_true] at h
    rw [procClauses_cons] at hlen ⊢
    obtain ⟨f, rfl⟩ : ∃ f, fuel = f + 1 := by
      cases fuel with
      | zero => simp at hlen
      | succ f => exact ⟨f, rfl⟩
    have hrest : (procClauses rest).length ≤ f := by
      cases c <;> simp [clauseToks, List.length_append] at hlen <;> omega
    cases c with
    | cforT p it =>
      have hc := h.1
      simp only [clauseWF, Bool.and_eq_true, plainNE_iff] at hc
      rw [clauseToks, List.cons_append, List.append_assoc, List.cons_append]
      have h1 : fragSplit isPlainTok (p ++ Tok.tin :: (it ++ procClauses rest))
          = some (p, Tok.tin :: (it ++ procClauses rest)) :=
        fragSplit_append_stop isPlainTok p Tok.tin _ hc.1.1 hc.1.2 rfl
      rw [parseClausesGo, h1]
      cases rest with
      | nil =>
        have h2 : fragSplit isExprTok (it ++ procClauses []) = some (it, []) := by
          rw [show procClauses [] = [] from rfl, List.append_nil]
          exact fragSplit_all isExprTok it hc.2.1 (plain_all_expr it hc.2.2)
        simp [h2]
      | cons c2 rest2 =>
        have h2 : fragSplit isExprTok (it ++ procClauses (c2 :: rest2))
            = some (it, Tok.sep :: (clauseToks c2 ++ procClauses rest2)) := by
          rw [procClauses_cons]
          exact fragSplit_append_stop isExprTok it Tok.sep _ hc.2.1 (plain_all_expr it hc.2.2) rfl
        have h3 := ih f hrest h.2
        rw [procClauses_cons] at h3
        simp [h2, h3]
    | cifT cc =>
      have hc := h.1
      simp only [clauseWF, plainNE_iff] at hc
      rw [clauseToks, List.cons_append]
      cases rest with
      | nil =>
        have h2 : fragSplit isExprTok (cc ++ procClauses []) = some (cc, []) := by
          rw [show procClauses [] = [] from rfl, List.append_nil]
          exact fragSplit_all isExprTok cc hc.1 (plain_all_expr cc hc.2)
        rw [parseClausesGo]
        simp [h2]
      | cons c2 rest2 =>
        have h2 : fragSplit isExprTok (cc ++ procClauses (c2 :: rest2))
            = some (cc, Tok.sep :: (clauseToks c2 ++ procClauses rest2)) := by
          rw [procClauses_cons]
          exact fragSplit_append_stop isExprTok cc Tok.sep _ hc.1 (plain_all_expr cc hc.2) rfl
        have h3 := ih f hrest h.2
        rw [procClauses_cons] at h3
        rw [parseClausesGo]
        simp [h2, h3]

theorem parse_proc (cs : List TClause) (h : cs.all clauseWF = true) :
    parseClauses (procClauses cs) = Except.ok cs :=
  parse_proc_go cs (procClauses cs).length (Nat.le_refl _) h

/-- C7 counterexample.  The claim says iterable/condition sub-expressions are
handed through verbatim even when they contain top-level `for`/`if` tokens.
For the comprehension `e₀ for e₁ in if e₂ e₃` (an `if` expression as the
iterable), `@preprocess[1]` inserts a `,` before the iterable's `if`, so the
iterable expression parse finds nothing after `in` and translation dies with
`Invalid for-loop` — instead of the claim's predicted verbatim result
(second conjunct). -/
theorem subexpr_verbatim_counterexample :
    translateToks [Tok.ident 0, Tok.tfor, Tok.ident 1, Tok.tin, Tok.tif, Tok.ident 2, Tok.ident 3]
      = Except.error MErr.invalidForLoop
    ∧ translateToks [Tok.ident 0, Tok.tfor, Tok.ident 1, Tok.tin, Tok.tif, Tok.ident 2, Tok.ident 3]
      ≠ Except.ok (TBody.seqB [Tok.ident 0],
          [TClause.cforT [Tok.ident 1] [Tok.tif, Tok.ident 2, Tok.ident 3]]) :=
  ⟨rfl, fun hc => by
    rw [show translateToks [Tok.ident 0, Tok.tfor, Tok.ident 1, Tok.tin, Tok.tif,
      Tok.ident 2, Tok.ident 3] = Except.error MErr.invalidForLoop from rfl] at hc
    exact Except.noConfusion hc⟩

/-- C7 as amended: host sub-expressions that contain no top-level `for`/`if`
token (and none of the delimiter tokens the rules match on) are passed
through the whole translation verbatim and unmodified — the translated body
and clause list hold exactly the token sequences the author wrote, groups
(with arbitrary contents, nested `for`s included) untouched. -/
theorem subexprs_without_for_if_verbatim (b : TBody) (cs : List TClause)
    (hb : bodyWF b = true) (h : cs.all clauseWF = true) (hfirst : startsWithFor cs = true) :
    translateToks (rawToks b cs) = Except.ok (b, cs) := by
  have hshape : ∃ z, procClauses cs = Tok.sep :: Tok.tfor :: z := by
    cases cs with
    | nil => exact absurd hfirst (by simp [startsWithFor])
    | cons c rest =>
      cases c with
      | cifT _ => exact absurd hfirst (by simp [startsWithFor])
      | cforT p it => exact ⟨_, by rw [procClauses_cons, clauseToks, List.cons_append]⟩
  obtain ⟨z, hz⟩ := hshape
  have h1 := preprocess_raw b cs hb h hfirst
  have h2 := construct0_proc b z hb
  rw [← hz] at h2
  have h3 := parse_proc cs h
  simp [translateToks, h1, h2, h3]

/-- Concrete comprehension used to evaluate the round-trip theorem: the
mapping body `e₀ : e₁` and tail `for e₂ in e₃ if e₄ for [for] in e₅` (the
third clause's pattern is a group that itself contains a `for` token —
nested tokens are opaque and survive verbatim). -/
def exClauses : List TClause :=
  [TClause.cforT [Tok.ident 2] [Tok.ident 3], TClause.cifT [Tok.ident 4],
    TClause.cforT [Tok.group [Tok.tfor]] [Tok.ident 5]]

/-- Evaluation witness for `subexprs_without_for_if_verbatim`. -/
theorem subexprs_without_for_if_verbatim_witness :
    bodyWF (TBody.mapB [Tok.ident 0] [Tok.ident 1]) = true
    ∧ exClauses.all clauseWF = true
    ∧ startsWithFor exClauses = true
    ∧ translateToks (rawToks (TBody.mapB [Tok.ident 0] [Tok.ident 1]) exClauses)
      = Except.ok (TBody.mapB [Tok.ident 0] [Tok.ident 1], exClauses) :=
  ⟨rfl, rfl, rfl,
    subexprs_without_for_if_verbatim (TBody.mapB [Tok.ident 0] [Tok.ident 1]) exClauses rfl rfl rfl⟩

theorem preprocess0_noColonFor (ts : List Tok) : ∀ acc,
    ts.any isColonTok = false → ts.any isForTok = false →
    preprocess0 ts acc = Except.error MErr.missingLoopClause := by
  induction ts with
  | nil => intro acc _ _; rfl
  | cons t rest ih =>
    intro acc hc hf
    simp only [List.any_cons, Bool.or_eq_false_iff] at hc hf
    rw [preprocess0]
    simp only [hc.1, hf.1, Bool.false_eq_true, if_false]
    exact ih (acc ++ [t]) hc.2 hf.2

/-- C4 counterexample.  The claim says a stream with no `for` token fails
with the missing-loop-clause error regardless of what else it contains,
including a top-level `:`.  But for the for-free stream `, : e₀` (a leading
literal `,`, then a `:`), the `:` rule moves scanning into `@preprocess[1]`,
whose first rule sees the copied leading `,` at the head of the accumulated
output and dies with `compile_error!("Missing loop body")` — a different
failure mode.  (The trace stays entirely inside the preprocessing phases,
which dispatch on literal token trees only.) -/
theorem noFor_error_counterexample :
    ([Tok.sep, Tok.colon, Tok.ident 0].any isForTok = false)
    ∧ preprocess0 [Tok.sep, Tok.colon, Tok.ident 0] [] = Except.error MErr.missingLoopBody
    ∧ MErr.missingLoopBody ≠ MErr.missingLoopClause :=
  ⟨rfl, rfl, by decide⟩

/-- C4 as amended: a raw clause stream in which the scan finds no `for`
token **and no top-level `:`** fails with the missing-loop-clause error:
`@preprocess[0]` copies every other token tree unchanged (tokens inside
delimited groups, a nested `for` included, are invisible to it) and reaches
the end of its input, which is the `compile_error!` of src/lib.rs lines
122-124.  Only these two rules can fire, so no other failure mode can occur.
A top-level `:` voids the guarantee: scanning then moves into
`@preprocess[1]` and onwards to the `@construct[0]` rules, where the failure
mode depends on the accumulated body — a leading literal `,` gives the
missing-loop-body error (see the counterexample), and otherwise the
committed `$k:expr` fragment parse of the rewritten body can abort the
invocation with a host parse error (e.g. `- : y`, where the expression
parser commits on `-` and fails at `=>`), behaviour of the host expression
grammar that a token-tree model cannot decide for opaque atoms. -/
theorem noFor_missingLoopClause (ts : List Tok)
    (hf : ts.any isForTok = false) (hc : ts.any isColonTok = false) :
    preprocess0 ts [] = Except.error MErr.missingLoopClause :=
  preprocess0_noColonFor ts [] hc hf

/-- Evaluation witness for `noFor_missingLoopClause`: a for-free, colon-free
stream containing an `if`, a `;`, a literal `,` and a group that hides a
`for` and a `:` — all copied, and the scan still ends in the
missing-loop-clause error. -/
theorem noFor_missingLoopClause_witness :
    ([Tok.ident 0, Tok.tif, Tok.ident 1, Tok.sep, Tok.semi,
        Tok.group [Tok.tfor, Tok.colon]].any isForTok = false)
    ∧ ([Tok.ident 0, Tok.tif, Tok.ident 1, Tok.sep, Tok.semi,
        Tok.group [Tok.tfor, Tok.colon]].any isColonTok = false)
    ∧ preprocess0 [Tok.ident 0, Tok.tif, Tok.ident 1, Tok.sep, Tok.semi,
        Tok.group [Tok.tfor, Tok.colon]] [] = Except.error MErr.missingLoopClause :=
  ⟨rfl, rfl,
    noFor_missingLoopClause [Tok.ident 0, Tok.tif, Tok.ident 1, Tok.sep, Tok.semi,
      Tok.group [Tok.tfor, Tok.colon]] rfl rfl⟩

/-! ## Runtime semantics of the expanded code

`@construct[1]` expands a clause list into literally nested host `for`/`if`
statements around an accumulation action (`v.push(…)`, `m.insert(…, …);`, or
the user statement).  The definitions below embed the values, patterns and
typing of the host language fragment the loops operate on, the nested
structure the macro builds, and its execution. -/

/-- Host values an iterable can produce: integers, pairs (tuples), and
options — enough to express the destructuring and refutable patterns Rust
for-loop bindings can mention. -/
inductive Val where
  | vint : Int → Val
  | vpair : Val → Val → Val
  | vsome : Val → Val
  | vnone : Val
deriving DecidableEq, Repr

/-- Host types of those values. -/
inductive Ty where
  | tint : Ty
  | tpair : Ty → Ty → Ty
  | topt : Ty → Ty
deriving DecidableEq, Repr

def hasTy : Val → Ty → Bool
  | Val.vint _, Ty.tint => true
  | Val.vpair a b, Ty.tpair ta tb => hasTy a ta && hasTy b tb
  | Val.vsome v, Ty.topt t => hasTy v t
  | Val.vnone, Ty.topt _ => true
  | _, _ => false

/-- A host binding pattern as can appear in `for <pat> in …`: a variable, a
wildcard, a tuple pattern, or the refutable forms (a literal, `Some(…)`,
`None`). -/
inductive Pat where
  | pvar : Nat → Pat
  | pwild : Pat
  | ppair : Pat → Pat → Pat
  | plit : Int → Pat
  | psome : Pat → Pat
  | pnone : Pat
deriving DecidableEq, Repr

/-- Variable environments produced by pattern bindings (newest first). -/
abbrev Env := List (Nat × Val)

/-- Host pattern matching: the bindings produced when the pattern accepts
the value, `none` when it does not. -/
def patMatch : Pat → Val → Option Env
  | Pat.pvar x, v => some [(x, v)]
  | Pat.pwild, _ => some []
  | Pat.ppair p q, Val.vpair a b =>
    (match patMatch p a, patMatch q b with
     | some e1, some e2 => some (e1 ++ e2)
     | _, _ => none)
  | Pat.ppair _ _, _ => none
  | Pat.plit n, v => if v = Val.vint n then some [] else none
  | Pat.psome p, Val.vsome v => patMatch p v
  | Pat.psome _, _ => none
  | Pat.pnone, Val.vnone => some []
  | Pat.pnone, _ => none

/-- Structural refutability, as the host compiler judges it for `for`-loop
bindings (rustc error E0005): literal, `Some`, `None` patterns are
refutable; a tuple pattern is refutable iff a component is. -/
def refutable : Pat → Bool
  | Pat.pvar _ => false
  | Pat.pwild => false
  | Pat.ppair p q => refutable p || refutable q
  | Pat.plit _ => true
  | Pat.psome _ => true
  | Pat.pnone => true

/-- The pattern is well-typed against the element type. -/
def patTy : Pat → Ty → Bool
  | Pat.pvar _, _ => true
  | Pat.pwild, _ => true
  | Pat.ppair p q, Ty.tpair ta tb => patTy p ta && patTy q tb
  | Pat.ppair _ _, _ => false
  | Pat.plit _, Ty.tint => true
  | Pat.plit _, _ => false
  | Pat.psome p, Ty.topt t => patTy p t
  | Pat.psome _, _ => false
  | Pat.pnone, Ty.topt _ => true
  | Pat.pnone, _ => false

/-- A semantically interpreted clause: `for` carries its binding pattern,
the element type of its iterable, and the iterable as an opaque host
expression (a function of the environment producing the element sequence in
iteration order); `if` carries the opaque condition expression. -/
inductive Clause where
  | cfor : Pat → Ty → (Env → List Val) → Clause
  | cif : (Env → Bool) → Clause

/-- The nested structure `@construct[1]` builds: each clause node owns the
single structure built from the remaining clauses, and the innermost node is
the accumulation action. -/
inductive LoweredTree where
  | act : LoweredTree
  | forNode : Pat → Ty → (Env → List Val) → LoweredTree → LoweredTree
  | ifNode : (Env → Bool) → LoweredTree → LoweredTree

/-- The `@construct[1]` recursion (src/lib.rs lines 167-191): the first
clause of the list becomes the outermost node, wrapping the structure built
from the rest; the empty list is the accumulation action (lines 189-191). -/
def lower : List Clause → LoweredTree
  | [] => LoweredTree.act
  | Clause.cfor p ty it :: rest => LoweredTree.forNode p ty it (lower rest)
  | Clause.cif c :: rest => LoweredTree.ifNode c (lower rest)

/-- The only runtime failure the expanded code could exhibit: a loop binding
pattern rejecting a produced element. -/
inductive EErr where
  | patternBindingFailure : EErr
deriving DecidableEq, Repr

/-- One host `for` loop over an element list: bind each element against the
pattern in order, thread the accumulator state through the loop body `f`. -/
def runForAux {σ : Type} (f : Env → σ → Except EErr σ) (p : Pat) :
    List Val → Env → σ → Except EErr σ
  | [], _, s => Except.ok s
  | v :: vs, env, s =>
    match patMatch p v with
    | none => Except.error EErr.patternBindingFailure
    | some binds =>
      match f (binds ++ env) s with
      | Except.error e => Except.error e
      | Except.ok s1 => runForAux f p vs env s1

/-- Execution of the lowered nested structure, exactly as the expanded Rust
runs: a `for` node iterates its elements in order running its single child
for each, an `if` node runs its child only when the condition holds, and the
innermost node performs the accumulation action on the state. -/
def runTree {σ : Type} (act : Env → σ → σ) : LoweredTree → Env → σ → Except EErr σ
  | LoweredTree.act, env, s => Except.ok (act env s)
  | LoweredTree.forNode p _ it child, env, s =>
    runForAux (fun e s2 => runTree act child e s2) p (it env) env s
  | LoweredTree.ifNode c child, env, s =>
    if c env then runTree act child env s else Except.ok s

/-- Follows the spec's words, for the refinement comparison: the literal
nested-loop/if-guard form over the clause list itself, the first-written
clause being the outermost loop/guard and the accumulation action innermost. -/
def specNested {σ : Type} (act : Env → σ → σ) : List Clause → Env → σ → Except EErr σ
  | [], env, s => Except.ok (act env s)
  | Clause.cfor p _ it :: rest, env, s =>
    runForAux (fun e s2 => specNested act rest e s2) p (it env) env s
  | Clause.cif c :: rest, env, s =>
    if c env then specNested act rest env s else Except.ok s

/-- One nested `for` loop, recording instead the environments with which the
innermost point is reached, in production order. -/
def envsForAux (f : Env → Except EErr (List Env)) (p : Pat) :
    List Val → Env → Except EErr (List Env)
  | [], _ => Except.ok []
  | v :: vs, env =>
    match patMatch p v with
    | none => Except.error EErr.patternBindingFailure
    | some binds =>
      match f (binds ++ env) with
      | Except.error e => Except.error e
      | Except.ok l1 =>
        match envsForAux f p vs env with
        | Except.error e => Except.error e
        | Except.ok l2 => Except.ok (l1 ++ l2)

/-- Follows the spec's words: the sequence of environments in which the
nested iteration reaches its innermost point, in outer-loop-major production
order — the "iteration steps" against which output order and key collisions
are specified. -/
def nestedEnvs : List Clause → Env → Except EErr (List Env)
  | [], env => Except.ok [env]
  | Clause.cfor p _ it :: rest, env =>
    envsForAux (fun e => nestedEnvs rest e) p (it env) env
  | Clause.cif c :: rest, env =>
    if c env then nestedEnvs rest env else Except.ok []

/-- The `Vec` accumulation of the `@construct[0]` sequence rule (src/lib.rs
lines 158-162): `let mut v = Vec::new();` then `v.push($e)` innermost; the
container starts empty and the body value is appended at the end. -/
def seqRun (cs : List Clause) (f : Env → Val) (env : Env) : Except EErr (List Val) :=
  runTree (fun e l => l ++ [f e]) (lower cs) env []

/-- The key→value container, observed through `hmLookup`. -/
abbrev HMap := List (Val × Val)

/-- `HashMap::insert`: the new pair is present afterwards and any previous
pair with the same key is gone (entry order is container-defined and never
observed; every observation goes through `hmLookup`). -/
def hmInsert (m : HMap) (k v : Val) : HMap :=
  (k, v) :: m.filter fun kv => !(kv.1 == k)

def hmLookup (m : HMap) (k : Val) : Option Val :=
  (m.find? fun kv => kv.1 == k).map fun kv => kv.2

/-- The `HashMap` accumulation of the `@construct[0]` mapping rule
(src/lib.rs lines 153-157): `let mut m = HashMap::new();` then
`m.insert($k, $v);` innermost. -/
def mapRun (cs : List Clause) (kf vf : Env → Val) (env : Env) : Except EErr HMap :=
  runTree (fun e m => hmInsert m (kf e) (vf e)) (lower cs) env []

/-- The statement form of the `@construct[0]` rules (src/lib.rs lines
163-165): the user statement runs innermost for its effect on the host state
`σ`; no container is built. -/
def stmtRun {σ : Type} (cs : List Clause) (g : Env → σ → σ) (env : Env) (s0 : σ) :
    Except EErr σ :=
  runTree g (lower cs) env s0

theorem runForAux_congr {σ : Type} (f g : Env → σ → Except EErr σ) (p : Pat)
    (hf : ∀ e s, f e s = g e s) :
    ∀ vs env s, runForAux f p vs env s = runForAux g p vs env s := by
  intro vs
  induction vs with
  | nil => intro env s; rfl
  | cons v vs ih =>
    intro env s
    rw [runForAux, runForAux]
    cases patMatch p v with
    | none => rfl
    | some binds =>
      simp only [hf]
      cases g (binds ++ env) s with
      | error e => rfl
      | ok s1 => exact ih env s1

/-- The structure `@construct[1]` builds from a clause list, executed, is
the literal nested-loop/if-guard form over the same clause list. -/
theorem runTree_lower {σ : Type} (act : Env → σ → σ) (cs : List Clause) :
    ∀ env s, runTree act (lower cs) env s = specNested act cs env s := by
  induction cs with
  | nil => intro env s; rfl
  | cons c rest ih =>
    intro env s
    cases c with
    | cfor p ty it =>
      rw [lower, runTree, specNested]
      exact runForAux_congr _ _ p (fun e s2 => ih e s2) (it env) env s
    | cif cond =>
      rw [lower, runTree, specNested]
      split
      · exact ih env s
      · rfl

theorem runForAux_envsForAux {σ : Type} (act : Env → σ → σ)
    (fS : Env → σ → Except EErr σ) (fE : Env → Except EErr (List Env))
    (hf : ∀ e s, fS e s = (fE e).map fun l => l.foldl (fun s2 e2 => act e2 s2) s)
    (p : Pat) : ∀ vs env s,
    runForAux fS p vs env s
      = (envsForAux fE p vs env).map fun l => l.foldl (fun s2 e2 => act e2 s2) s := by
  intro vs
  induction vs with
  | nil => intro env s; rfl
  | cons v vs ih =>
    intro env s
    rw [runForAux, envsForAux]
    cases patMatch p v with
    | none => rfl
    | some binds =>
      simp only [hf]
      cases hE : fE (binds ++ env) with
      | error e => rfl
      | ok l1 =>
        simp only [Except.map]
        rw [ih env (l1.foldl (fun s2 e2 => act e2 s2) s)]
        cases hE2 : envsForAux fE p vs env with
        | error e => rfl
        | ok l2 =>
          simp only [Except.map, List.foldl_append]
  
/-- Threading a state through the literal nested loops is folding the action
over the iteration steps in production order. -/
theorem specNested_foldl {σ : Type} (act : Env → σ → σ) (cs : List Clause) :
    ∀ env s, specNested act cs env s
      = (nestedEnvs cs env).map fun l => l.foldl (fun s2 e => act e s2) s := by
  induction cs with
  | nil => intro env s; rfl
  | cons c rest ih =>
    intro env s
    cases c with
    | cfor p ty it =>
      rw [specNested, nestedEnvs]
      exact runForAux_envsForAux act _ _ (fun e s2 => ih e s2) p (it env) env s
    | cif cond =>
      rw [specNested, nestedEnvs]
      split
      · exact ih env s
      · rfl

/-- The executed translation, as a fold of the accumulation action over the
iteration steps. -/
theorem runTree_lower_foldl {σ : Type} (act : Env → σ → σ) (cs : List Clause)
    (env : Env) (s : σ) :
    runTree act (lower cs) env s
      = (nestedEnvs cs env).map fun l => l.foldl (fun s2 e => act e s2) s := by
  rw [runTree_lower act cs env s, specNested_foldl act cs env s]

/-- Every `for` clause's pattern is accepted by the host compiler for a
loop binding: well-typed against the iterable's element type and
irrefutable. -/
def patsOk : List Clause → Bool
  | [] => true
  | Clause.cfor p ty _ :: rest => patTy p ty && !refutable p && patsOk rest
  | Clause.cif _ :: rest => patsOk rest

/-- Some `for` clause has a refutable binding pattern. -/
def hasRefutablePat : List Clause → Bool
  | [] => false
  | Clause.cfor p _ _ :: rest => refutable p || hasRefutablePat rest
  | Clause.cif _ :: rest => hasRefutablePat rest

/-- The host compiler's verdict on the macro's expansion. -/
inductive TransErr where
  | patternRejected : TransErr
deriving DecidableEq, Repr

/-- The whole translation of a clause list: the macro itself expands it into
nested host `for $p in $iter { … }` loops (`lower`), and the host compiler
accepts that expansion only if every loop binding pattern is irrefutable and
matches its iterable's element type (rustc errors E0005/E0308; a `for` loop
binding must be irrefutable).  Translation of the comprehension succeeds
exactly when every pattern passes that check — all before anything runs. -/
def translateClauses (cs : List Clause) : Except TransErr LoweredTree :=
  if patsOk cs then Except.ok (lower cs) else Except.error TransErr.patternRejected

/-- The iterables deliver values of their declared element types — the host
type system's guarantee about the opaque iterable expressions. -/
def typedIters (cs : List Clause) : Prop :=
  ∀ c ∈ cs, ∀ p ty it, c = Clause.cfor p ty it → ∀ e v, v ∈ it e → hasTy v ty = true

/-- An irrefutable pattern accepts every value of its type. -/
theorem patMatch_total (p : Pat) : ∀ (ty : Ty) (v : Val),
    patTy p ty = true → refutable p = false → hasTy v ty = true →
    ∃ binds, patMatch p v = some binds := by
  induction p with
  | pvar x => intro ty v _ _ _; exact ⟨[(x, v)], rfl⟩
  | pwild => intro ty v _ _ _; exact ⟨[], rfl⟩
  | ppair p q ihp ihq =>
    intro ty v hp hr hv
    cases ty with
    | tint => exact absurd hp (by simp [patTy])
    | topt _ => exact absurd hp (by simp [patTy])
    | tpair ta tb =>
      cases v with
      | vint _ => exact absurd hv (by simp [hasTy])
      | vsome _ => exact absurd hv (by simp [hasTy])
      | vnone => exact absurd hv (by simp [hasTy])
      | vpair a b =>
        simp only [patTy, Bool.and_eq_true] at hp
        simp only [refutable, Bool.or_eq_false_iff] at hr
        simp only [hasTy, Bool.and_eq_true] at hv
        obtain ⟨e1, he1⟩ := ihp ta a hp.1 hr.1 hv.1
        obtain ⟨e2, he2⟩ := ihq tb b hp.2 hr.2 hv.2
        exact ⟨e1 ++ e2, by rw [patMatch, he1, he2]⟩
  | plit n => intro ty v _ hr _; exact absurd hr (by simp [refutable])
  | psome p ihp => intro ty v _ hr _; exact absurd hr (by simp [refutable])
  | pnone => intro ty v _ hr _; exact absurd hr (by simp [refutable])

theorem typedIters_cons (c : Clause) (cs : List Clause) (h : typedIters (c :: cs)) :
    typedIters cs :=
  fun c2 hc2 => h c2 (List.mem_cons_of_mem c hc2)

theorem envsForAux_ok (fE : Env → Except EErr (List Env)) (p : Pat) (ty : Ty)
    (hp : patTy p ty = true) (hr : refutable p = false)
    (hrec : ∀ e, ∃ l, fE e = Except.ok l) :
    ∀ vs env, (∀ v ∈ vs, hasTy v ty = true) →
      ∃ l, envsForAux fE p vs env = Except.ok l := by
  intro vs
  induction vs with
  | nil => intro env _; exact ⟨[], rfl⟩
  | cons v vs ih =>
    intro env hv
    obtain ⟨binds, hbinds⟩ := patMatch_total p ty v hp hr (hv v (List.mem_cons_self v vs))
    obtain ⟨l1, hl1⟩ := hrec (binds ++ env)
    obtain ⟨l2, hl2⟩ := ih env (fun w hw => hv w (List.mem_cons_of_mem v hw))
    refine ⟨l1 ++ l2, ?_⟩
    rw [envsForAux]
    simp [hbinds, hl1, hl2]

/-- If every pattern passed the host check and iterables are well-typed,
the nested iteration never fails. -/
theorem nestedEnvs_ok (cs : List Clause) (hok : patsOk cs = true) (ht : typedIters cs) :
    ∀ env, ∃ l, nestedEnvs cs env = Except.ok l := by
  induction cs with
  | nil => intro env; exact ⟨[env], rfl⟩
  | cons c rest ih =>
    intro env
    cases c with
    | cfor p ty it =>
      simp only [patsOk, Bool.and_eq_true, Bool.not_eq_true'] at hok
      have hvty : ∀ v ∈ it env, hasTy v ty = true := fun v hv =>
        ht (Clause.cfor p ty it) (List.mem_cons_self _ _) p ty it rfl env v hv
      rw [nestedEnvs]
      exact envsForAux_ok _ p ty hok.1.1 hok.1.2
        (ih hok.2 (typedIters_cons _ _ ht)) (it env) env hvty
    | cif cond =>
      rw [nestedEnvs]
      split
      · exact ih hok (typedIters_cons _ _ ht) env
      · exact ⟨[], rfl⟩

theorem foldl_push (f : Env → Val) : ∀ (l : List Env) (s : List Val),
    l.foldl (fun acc e => acc ++ [f e]) s = s ++ l.map f := by
  intro l
  induction l with
  | nil => intro s; simp
  | cons e l ih => intro s; rw [List.foldl_cons, ih, List.map_cons]; simp

/-- The value carried by the last pair of the list whose key is `k` — the
"later iteration step wins" reading of a production-ordered pair list. -/
def lastVal (k : Val) : List (Val × Val) → Option Val
  | [] => none
  | q :: ps =>
    match lastVal k ps with
    | some v => some v
    | none => if k = q.1 then some q.2 else none

theorem find?_filter_ne (k k' : Val) (hne : k' ≠ k) : ∀ m : HMap,
    (m.filter fun kv => !(kv.1 == k)).find? (fun kv => kv.1 == k')
      = m.find? fun kv => kv.1 == k' := by
  intro m
  induction m with
  | nil => rfl
  | cons q m ih =>
    by_cases hqk : q.1 = k
    · have hq' : (k == k') = false := by
        simp only [beq_eq_false_iff_ne, ne_eq]
        exact fun hc => hne hc.symm
      simp [List.filter_cons, List.find?_cons, hqk, hq', ih]
    · simp only [List.filter_cons]
      have h1 : (!(q.1 == k)) = true := by simp [hqk]
      rw [h1]
      simp only [if_true, List.find?_cons]
      cases hq' : (q.1 == k') with
      | true => rfl
      | false => exact ih

theorem hmLookup_insert (m : HMap) (k v k' : Val) :
    hmLookup (hmInsert m k v) k' = if k' = k then some v else hmLookup m k' := by
  by_cases h : k' = k
  · subst h
    simp [hmInsert, hmLookup, List.find?_cons]
  · have hh : ((k, v).1 == k') = false := by
      simp only [beq_eq_false_iff_ne, ne_eq]
      exact fun hc => h hc.symm
    rw [hmInsert, hmLookup, List.find?_cons, hh]
    rw [if_neg h, hmLookup, find?_filter_ne k k' h m]

theorem lookup_foldl_insert (k : Val) : ∀ (ps : List (Val × Val)) (m0 : HMap),
    hmLookup (ps.foldl (fun m q => hmInsert m q.1 q.2) m0) k
      = match lastVal k ps with
        | some v => some v
        | none => hmLookup m0 k := by
  intro ps
  induction ps with
  | nil => intro m0; rfl
  | cons q ps ih =>
    intro m0
    rw [List.foldl_cons, ih (hmInsert m0 q.1 q.2), lastVal]
    cases lastVal k ps with
    | some v => rfl
    | none =>
      rw [hmLookup_insert m0 q.1 q.2 k]
      by_cases hq : k = q.1 <;> simp [hq]

theorem refutable_patsOk (cs : List Clause) (h : hasRefutablePat cs = true) :
    patsOk cs = false := by
  induction cs with
  | nil => exact absurd h (by simp [hasRefutablePat])
  | cons c rest ih =>
    cases c with
    | cfor p ty it =>
      rw [hasRefutablePat] at h
      rw [patsOk]
      rcases Bool.or_eq_true_iff.mp h with hr | hr
      · simp [hr]
      · simp [ih hr]
    | cif cond =>
      rw [hasRefutablePat] at h
      rw [patsOk]
      exact ih h

theorem envsForAux_empty (fE : Env → Except EErr (List Env)) (p : Pat) (ty : Ty)
    (hp : patTy p ty = true) (hr : refutable p = false)
    (hrec : ∀ e, fE e = Except.ok []) :
    ∀ vs env, (∀ v ∈ vs, hasTy v ty = true) →
      envsForAux fE p vs env = Except.ok [] := by
  intro vs
  induction vs with
  | nil => intro env _; rfl
  | cons v vs ih =>
    intro env hv
    obtain ⟨binds, hbinds⟩ := patMatch_total p ty v hp hr (hv v (List.mem_cons_self v vs))
    rw [envsForAux]
    simp [hbinds, hrec (binds ++ env), ih env (fun w hw => hv w (List.mem_cons_of_mem v hw))]

/-- If some `for` clause's iterable is always empty, the nested iteration
reaches its innermost point zero times and produces no error. -/
theorem nestedEnvs_empty (cs : List Clause) (hok : patsOk cs = true) (ht : typedIters cs)
    (hempty : ∃ p ty it, Clause.cfor p ty it ∈ cs ∧ ∀ e, it e = []) :
    ∀ env, nestedEnvs cs env = Except.ok [] := by
  induction cs with
  | nil =>
    obtain ⟨p, ty, it, hmem, _⟩ := hempty
    exact absurd hmem (by simp)
  | cons c rest ih =>
    obtain ⟨p, ty, it, hmem, hit⟩ := hempty
    intro env
    rcases List.mem_cons.mp hmem with hc | hc
    · subst hc
      rw [nestedEnvs, hit env]
      rfl
    · cases c with
      | cif cond =>
        rw [nestedEnvs]
        split
        · exact ih hok (typedIters_cons _ _ ht) ⟨p, ty, it, hc, hit⟩ env
        · rfl
      | cfor p' ty' it' =>
        simp only [patsOk, Bool.and_eq_true, Bool.not_eq_true'] at hok
        have hvty : ∀ v ∈ it' env, hasTy v ty' = true := fun v hv =>
          ht (Clause.cfor p' ty' it') (List.mem_cons_self _ _) p' ty' it' rfl env v hv
        rw [nestedEnvs]
        exact envsForAux_empty _ p' ty' hok.1.1 hok.1.2
          (ih hok.2 (typedIters_cons _ _ ht) ⟨p, ty, it, hc, hit⟩) (it' env) env hvty

/-- C1: for every comprehension the translation accepts, executing the
lowered structure — with any accumulation action, from any starting state —
gives exactly the result of the literal nested-loop/if-guard form over the
clause list in its written order: the first-written clause is the outermost
loop/guard (`specNested` recurses that way) and the accumulation action is
innermost. -/
theorem translation_equals_nested_form {σ : Type} (act : Env → σ → σ)
    (cs : List Clause) (t : LoweredTree) (env : Env) (s : σ)
    (h : translateClauses cs = Except.ok t) :
    runTree act t env s = specNested act cs env s := by
  rw [translateClauses] at h
  split at h
  · cases h
    exact runTree_lower act cs env s
  · exact Except.noConfusion h

/-- Concrete comprehension for the C1 witness:
`for x in [1, 2] if true`. -/
def exC1 : List Clause :=
  [Clause.cfor (Pat.pvar 0) Ty.tint (fun _ => [Val.vint 1, Val.vint 2]),
    Clause.cif (fun _ => true)]

/-- Evaluation witness for `translation_equals_nested_form`. -/
theorem translation_equals_nested_form_witness :
    translateClauses exC1 = Except.ok (lower exC1)
    ∧ runTree (fun e l => l ++ [e]) (lower exC1) [] []
      = specNested (fun e l => l ++ [e]) exC1 [] [] :=
  ⟨rfl, translation_equals_nested_form (fun e l => l ++ [e]) exC1 (lower exC1) [] [] rfl⟩

/-- C2: the vector comprehension starts from the empty container (`seqRun`
starts the fold at `[]`) and appends one value per iteration step, so its
output is exactly the body value at each environment the nested iteration
produces, in outer-loop-major production order. -/
theorem seq_output_order (cs : List Clause) (f : Env → Val) (env : Env) :
    seqRun cs f env = (nestedEnvs cs env).map fun l => l.map f := by
  rw [seqRun, runTree_lower_foldl]
  cases nestedEnvs cs env with
  | error e => rfl
  | ok l =>
    simp only [Except.map]
    rw [foldl_push f l []]
    simp

/-- C3: in a hash map comprehension, looking up any key in the final
container yields the value inserted by the last iteration step (in
production order) that produced that key — last write wins. -/
theorem map_last_write_wins (cs : List Clause) (kf vf : Env → Val) (env : Env)
    (l : List Env) (m : HMap) (k : Val)
    (hl : nestedEnvs cs env = Except.ok l)
    (hm : mapRun cs kf vf env = Except.ok m) :
    hmLookup m k = lastVal k (l.map fun e => (kf e, vf e)) := by
  rw [mapRun, runTree_lower_foldl, hl] at hm
  simp only [Except.map, Except.ok.injEq] at hm
  subst hm
  have hfold : (l.foldl (fun m2 e => hmInsert m2 (kf e) (vf e)) ([] : HMap))
      = ((l.map fun e => (kf e, vf e)).foldl (fun m2 q => hmInsert m2 q.1 q.2) ([] : HMap)) := by
    rw [List.foldl_map]
  rw [hfold, lookup_foldl_insert k _ []]
  cases lastVal k (l.map fun e => (kf e, vf e)) <;> rfl

/-- Concrete comprehension for the C3 witness: `for x in [1, 2]` with the
constant key `7` and value `x` — two iteration steps collide on the key. -/
def exC3 : List Clause :=
  [Clause.cfor (Pat.pvar 0) Ty.tint (fun _ => [Val.vint 1, Val.vint 2])]

def exVf : Env → Val := fun e =>
  match e with
  | (_, v) :: _ => v
  | [] => Val.vnone

/-- Evaluation witness for `map_last_write_wins`: both steps insert under
key `7`; the final container holds the second step's value `2`. -/
theorem map_last_write_wins_witness :
    nestedEnvs exC3 [] = Except.ok [[(0, Val.vint 1)], [(0, Val.vint 2)]]
    ∧ mapRun exC3 (fun _ => Val.vint 7) exVf [] = Except.ok [(Val.vint 7, Val.vint 2)]
    ∧ hmLookup [(Val.vint 7, Val.vint 2)] (Val.vint 7)
      = lastVal (Val.vint 7)
        ([[(0, Val.vint 1)], [(0, Val.vint 2)]].map fun e => ((fun _ => Val.vint 7) e, exVf e)) :=
  ⟨rfl, rfl,
    map_last_write_wins exC3 (fun _ => Val.vint 7) exVf [] [[(0, Val.vint 1)], [(0, Val.vint 2)]]
      [(Val.vint 7, Val.vint 2)] (Val.vint 7) rfl rfl⟩

/-- C6: in a translated comprehension whose iterables are well-typed, if some
`for` clause's iterable always produces zero elements, evaluation completes
without error and the result is the empty vector, the empty map, and — for
the statement form — the untouched initial state (the body never ran). -/
theorem empty_iterable_result {σ : Type} (cs : List Clause) (f kf vf : Env → Val)
    (g : Env → σ → σ) (env : Env) (s0 : σ)
    (hok : patsOk cs = true) (ht : typedIters cs)
    (hempty : ∃ p ty it, Clause.cfor p ty it ∈ cs ∧ ∀ e, it e = []) :
    seqRun cs f env = Except.ok [] ∧ mapRun cs kf vf env = Except.ok []
    ∧ stmtRun cs g env s0 = Except.ok s0 := by
  have h := nestedEnvs_empty cs hok ht hempty env
  refine ⟨?_, ?_, ?_⟩
  · rw [seqRun, runTree_lower_foldl, h]; rfl
  · rw [mapRun, runTree_lower_foldl, h]; rfl
  · rw [stmtRun, runTree_lower_foldl, h]; rfl

/-- Concrete comprehension for the C6 witness:
`for x in [5] for y in []`. -/
def exC6 : List Clause :=
  [Clause.cfor (Pat.pvar 0) Ty.tint (fun _ => [Val.vint 5]),
    Clause.cfor (Pat.pvar 1) Ty.tint (fun _ => [])]

theorem exC6_typed : typedIters exC6 := by
  intro c hc p ty it hceq e v hv
  simp only [exC6, List.mem_cons, List.not_mem_nil, or_false] at hc
  rcases hc with rfl | rfl
  · cases hceq
    simp only [List.mem_singleton] at hv
    subst hv
    rfl
  · cases hceq
    simp at hv

/-- Evaluation witness for `empty_iterable_result` (statement state `Nat`,
action counting executions: the count stays `0`). -/
theorem empty_iterable_result_witness :
    patsOk exC6 = true
    ∧ (∃ p ty it, Clause.cfor p ty it ∈ exC6 ∧ ∀ e, it e = [])
    ∧ seqRun exC6 (fun _ => Val.vint 0) [] = Except.ok []
    ∧ mapRun exC6 (fun _ => Val.vint 0) (fun _ => Val.vint 0) [] = Except.ok []
    ∧ stmtRun exC6 (fun _ n => n + 1) [] 0 = Except.ok 0 := by
  have h := empty_iterable_result exC6 (fun _ => Val.vint 0) (fun _ => Val.vint 0)
    (fun _ => Val.vint 0) (fun _ n => n + 1) [] 0 rfl exC6_typed
    ⟨Pat.pvar 1, Ty.tint, fun _ => [], by simp [exC6], fun _ => rfl⟩
  exact ⟨rfl, ⟨Pat.pvar 1, Ty.tint, fun _ => [], by simp [exC6], fun _ => rfl⟩,
    h.1, h.2.1, h.2.2⟩

/-- C9: a `for` clause with a refutable binding pattern makes the host
compiler reject the macro's expansion, so translation fails before any
evaluation (first conjunct); and whenever translation succeeds and the
iterables are well-typed, executing the lowered structure can never fail —
in particular no pattern-binding failure occurs for any produced element
(second conjunct). -/
theorem refutable_rejected_before_eval (cs : List Clause) :
    (hasRefutablePat cs = true → translateClauses cs = Except.error TransErr.patternRejected)
    ∧ ∀ t, translateClauses cs = Except.ok t → typedIters cs →
        ∀ {σ : Type} (act : Env → σ → σ) (env : Env) (s : σ),
          ∃ s2, runTree act t env s = Except.ok s2 := by
  constructor
  · intro h
    rw [translateClauses, refutable_patsOk cs h]
    rfl
  · intro t ht htyped σ act env s
    have hok : patsOk cs = true ∧ t = lower cs := by
      rw [translateClauses] at ht
      split at ht
      · exact ⟨by assumption, (Except.ok.inj ht).symm⟩
      · exact Except.noConfusion ht
    obtain ⟨l, hl⟩ := nestedEnvs_ok cs hok.1 htyped env
    refine ⟨l.foldl (fun s2 e => act e s2) s, ?_⟩
    rw [hok.2, runTree_lower_foldl, hl]
    rfl

/-- Concrete clause list for the C9 witness: `for 3 in [4]` — a literal
(refutable) binding pattern. -/
def exC9 : List Clause := [Clause.cfor (Pat.plit 3) Ty.tint (fun _ => [Val.vint 4])]

/-- Evaluation witness for `refutable_rejected_before_eval`. -/
theorem refutable_rejected_before_eval_witness :
    hasRefutablePat exC9 = true
    ∧ translateClauses exC9 = Except.error TransErr.patternRejected :=
  ⟨rfl, (refutable_rejected_before_eval exC9).1 rfl⟩

/-- C8 counterexample.  The claim describes an evaluation-time
`PatternBindingFailure` that aborts the comprehension when a produced element
does not match a destructuring pattern.  On this code no such evaluation
exists: for the clause `for Some(x) in [None]` — precisely a comprehension
an element of which would not match — translation itself already fails (the
host compiler rejects a refutable `for`-loop binding, rustc E0005), so there
is no evaluation to abort and no partially built collection to discard. -/
theorem pattern_failure_is_translation_time :
    translateClauses [Clause.cfor (Pat.psome (Pat.pvar 0)) (Ty.topt Ty.tint)
      (fun _ => [Val.vnone])] = Except.error TransErr.patternRejected := rfl

/-- C8 as amended: pattern rejection happens at translation time, not during
evaluation; a comprehension that translates (with well-typed iterables)
evaluates without any pattern-binding failure, and the built collection is
always returned — never discarded. -/
theorem no_eval_discard (cs : List Clause) (f : Env → Val) (env : Env) (t : LoweredTree)
    (hok : translateClauses cs = Except.ok t) (ht : typedIters cs) :
    ∃ out, seqRun cs f env = Except.ok out := by
  have hpats : patsOk cs = true := by
    rw [translateClauses] at hok
    split at hok
    · assumption
    · exact Except.noConfusion hok
  obtain ⟨l, hl⟩ := nestedEnvs_ok cs hpats ht env
  refine ⟨l.map f, ?_⟩
  rw [seqRun, runTree_lower_foldl, hl]
  simp only [Except.map]
  rw [foldl_push f l []]
  simp

/-- Concrete clause list for the C8 witness: a destructuring (tuple) pattern
`for (x, y) in [(1, 2)]` — irrefutable, accepted, and evaluated without
failure. -/
def exC8 : List Clause :=
  [Clause.cfor (Pat.ppair (Pat.pvar 0) (Pat.pvar 1)) (Ty.tpair Ty.tint Ty.tint)
    (fun _ => [Val.vpair (Val.vint 1) (Val.vint 2)])]

theorem exC8_typed : typedIters exC8 := by
  intro c hc p ty it hceq e v hv
  simp only [exC8, List.mem_cons, List.not_mem_nil, or_false] at hc
  subst hc
  cases hceq
  simp only [List.mem_singleton] at hv
  subst hv
  rfl

/-- Evaluation witness for `no_eval_discard`. -/
theorem no_eval_discard_witness :
    translateClauses exC8 = Except.ok (lower exC8)
    ∧ typedIters exC8
    ∧ ∃ out, seqRun exC8 (fun _ => Val.vint 0) [] = Except.ok out :=
  ⟨rfl, exC8_typed, no_eval_discard exC8 (fun _ => Val.vint 0) [] (lower exC8) rfl exC8_typed⟩
